import Mathlib

/-!
Verification of the channel/bus topology and buffer-routing core of
IPlugProcessor (iPlug2).  The repository provides `IPlug/IPlugProcessor.h`,
which declares the interface and gives one-line bodies for a few accessors
(`HasWildcardBus`, `HasSidechainInput`, `NSidechainChannels`, `MaxNBuses`);
the bodies of `ParseChannelIOStr`, `LegalIO`, the buffer attach/routing
routines and the latency delay line live in `IPlugProcessor.cpp` /
`IPlugStructs.h` / `NChanDelay.h`, which are not part of the provided
sources.  Those operations are modelled from the specification, as marked
in each doc comment.  C strings are modelled as `List Char` (reached from
a Lean `String` via `String.data`), machine `int` values as `Int`/`Nat`,
and sample buffers as `List Int` (the routing core never performs
arithmetic on samples except the accumulating sum, so the concrete sample
representation is irrelevant to the routed values).
-/

namespace IPlug

/-- Modelled from the spec: a bus channel-count entry of a topology
descriptor is either a fixed positive integer or a wildcard marker meaning
"accepts any channel count on this bus" (spec §3; `IOConfig` lives in the
missing IPlugStructs.h). -/
inductive BusChans where
  | fixed (n : Nat)
  | wildcard
deriving DecidableEq, Repr

/-- Modelled from the spec: a bus-topology descriptor (`IOConfig`): an
ordered sequence of input bus channel-counts and an ordered sequence of
output bus channel-counts, produced from one whitespace-separated token of
the configuration grammar (spec §3). -/
structure IOConfig where
  inBuses : List BusChans
  outBuses : List BusChans
deriving DecidableEq, Repr

/-- The routing direction enumeration (`ERoute` in IPlugConstants.h, which
is not among the provided sources): input or output. -/
inductive ERoute where
  | kInput
  | kOutput
deriving DecidableEq, Repr

/-- The bus list of a descriptor in a given direction. -/
def busesOf (c : IOConfig) : ERoute → List BusChans
  | .kInput => c.inBuses
  | .kOutput => c.outBuses

/-- Modelled from the spec: the channel count contributed by one bus entry
when totalling a descriptor's channels; a wildcard contributes no fixed
channels (the spec leaves the wildcard's contribution to the totals
unspecified, and no claim exercises it). -/
def chanVal : BusChans → Nat
  | .fixed n => n
  | .wildcard => 0

/-- Total channel count of one side (one direction) of a descriptor:
the sum of its bus channel-counts. -/
def totalChans (bs : List BusChans) : Nat :=
  (bs.map chanVal).sum

/-- Whether one bus entry is the wildcard marker. -/
def isWildcardB : BusChans → Bool
  | .wildcard => true
  | .fixed _ => false

/-- Whether a bus list contains a wildcard bus. -/
def hasWildcard (bs : List BusChans) : Bool :=
  bs.any isWildcardB

/-- Whether a descriptor contains a wildcard bus in the given direction
(`IOConfig::ContainsWildcard`, declared in the missing IPlugStructs.h).
Modelled from the spec: "whether any bus in a direction contains a
wildcard" (spec §4.2). -/
def containsWildcard (c : IOConfig) (dir : ERoute) : Bool :=
  hasWildcard (busesOf c dir)

/-! ## The topology parser (`ParseChannelIOStr`)

Modelled from the spec (§3, §4.1, §6) and the header's own doc comment
(IPlugProcessor.h:201-209): the configuration string is a space separated
list of tokens; each token has the form `<in-buses>-<out-buses>` where a
hyphen delimits input from output and each side is a `.`-separated list of
bus entries; a bus entry is a positive integer or the wildcard symbol `*`.
Parsing fails on empty input, a token missing the `-` separator, a
non-numeric/non-wildcard bus entry, or a bus entry of zero.  The four
aggregate counts are maxima over all tokens, updated incrementally as each
token is parsed. -/

/-- Split a character list on every occurrence of a separator character;
always returns at least one (possibly empty) fragment. -/
def splitOnChar (sep : Char) : List Char → List (List Char)
  | [] => [[]]
  | c :: rest =>
    match splitOnChar sep rest with
    | [] => [[]]
    | cur :: done =>
      if c = sep then [] :: cur :: done else (c :: cur) :: done

/-- Split a character list at the first occurrence of a separator into the
part before and the part after; `none` when the separator is absent. -/
def splitAtFirst (sep : Char) : List Char → Option (List Char × List Char)
  | [] => none
  | c :: rest =>
    if c = sep then some ([], rest)
    else
      match splitAtFirst sep rest with
      | none => none
      | some (a, b) => some (c :: a, b)

/-- The space-separated tokens of a configuration string (empty fragments
produced by repeated spaces are insignificant whitespace, spec §6). -/
def tokensOf (s : List Char) : List (List Char) :=
  (splitOnChar ' ' s).filter fun t => !t.isEmpty

/-- The decimal value of a digit string (most significant digit first). -/
def digitsToNat (e : List Char) : Nat :=
  e.foldl (fun acc c => acc * 10 + (c.toNat - 48)) 0

/-- Parse one bus entry: the wildcard symbol, or a positive integer;
a zero entry or a non-numeric entry is rejected. -/
def parseBusChans (e : List Char) : Option BusChans :=
  if e = ['*'] then some BusChans.wildcard
  else if !e.isEmpty && e.all Char.isDigit then
    if digitsToNat e = 0 then none else some (BusChans.fixed (digitsToNat e))
  else none

/-- Parse the `.`-separated entries of one side of a token. -/
def parseEntries : List (List Char) → Option (List BusChans)
  | [] => some []
  | e :: rest =>
    match parseBusChans e, parseEntries rest with
    | some b, some bs => some (b :: bs)
    | _, _ => none

/-- Parse one side (input or output) of a token. -/
def parseSide (side : List Char) : Option (List BusChans) :=
  parseEntries (splitOnChar '.' side)

/-- Parse one space-separated token into a descriptor: the hyphen delimits
the input side from the output side (IPlugProcessor.h:202). -/
def parseToken (t : List Char) : Option IOConfig :=
  match splitAtFirst '-' t with
  | none => none
  | some (i, o) =>
    match parseSide i, parseSide o with
    | some ib, some ob => some ⟨ib, ob⟩
    | _, _ => none

/-- The token-by-token parsing loop, carrying the descriptor list built so
far and the four running aggregate maxima (max total input channels, max
total output channels, max input buses, max output buses). -/
def parseLoop : List (List Char) → List IOConfig → Nat → Nat → Nat → Nat →
    Option (List IOConfig × Nat × Nat × Nat × Nat)
  | [], cfgs, tIn, tOut, bIn, bOut => some (cfgs, tIn, tOut, bIn, bOut)
  | t :: rest, cfgs, tIn, tOut, bIn, bOut =>
    match parseToken t with
    | none => none
    | some cfg =>
      parseLoop rest (cfgs ++ [cfg])
        (max tIn (totalChans cfg.inBuses))
        (max tOut (totalChans cfg.outBuses))
        (max bIn cfg.inBuses.length)
        (max bOut cfg.outBuses.length)

/-- Modelled from the spec: `IPlugProcessor::ParseChannelIOStr`
(declared at IPlugProcessor.h:209, body in the missing IPlugProcessor.cpp).
Returns the descriptor list and the four aggregate counts (max total input
channels, max total output channels, max input buses, max output buses),
or `none` on a parse failure (the C++ code reports failure as a
zero/degenerate configuration result, spec §7). -/
def ParseChannelIOStr (s : String) :
    Option (List IOConfig × Nat × Nat × Nat × Nat) :=
  match tokensOf s.data with
  | [] => none
  | ts => parseLoop ts [] 0 0 0 0

/-! ## Parser lemmas -/

/-- The maximum of a list of naturals (0 for the empty list). -/
def maxList (l : List Nat) : Nat := l.foldr max 0

/-- What the parsing loop returns on success: the accumulated descriptors
followed by one descriptor per remaining token, with each aggregate the max
of its accumulator and the per-token values. -/
theorem parseLoop_some_eq (ts : List (List Char)) :
    ∀ acc a b c d cfgs p q r w,
      parseLoop ts acc a b c d = some (cfgs, p, q, r, w) →
      ∃ news, cfgs = acc ++ news ∧ news.length = ts.length ∧
        p = max a (maxList (news.map fun k => totalChans k.inBuses)) ∧
        q = max b (maxList (news.map fun k => totalChans k.outBuses)) ∧
        r = max c (maxList (news.map fun k => k.inBuses.length)) ∧
        w = max d (maxList (news.map fun k => k.outBuses.length)) := by
  induction ts with
  | nil =>
    intro acc a b c d cfgs p q r w h
    simp only [parseLoop, Option.some.injEq, Prod.mk.injEq] at h
    obtain ⟨h1, h2, h3, h4, h5⟩ := h
    exact ⟨[], by simp [h1.symm, h2.symm, h3.symm, h4.symm, h5.symm, maxList]⟩
  | cons t ts ih =>
    intro acc a b c d cfgs p q r w h
    simp only [parseLoop] at h
    cases ht : parseToken t with
    | none => rw [ht] at h; exact absurd h (by simp)
    | some cfg =>
      rw [ht] at h
      obtain ⟨news, hcfgs, hlen, hp, hq, hr, hw⟩ :=
        ih (acc ++ [cfg]) _ _ _ _ cfgs p q r w h
      refine ⟨cfg :: news, ?_, by simp [hlen], ?_, ?_, ?_, ?_⟩
      · simp [hcfgs]
      · simp [hp, maxList, Nat.max_assoc]
      · simp [hq, maxList, Nat.max_assoc]
      · simp [hr, maxList, Nat.max_assoc]
      · simp [hw, maxList, Nat.max_assoc]


/-- C1: for every valid configuration string, `ParseChannelIOStr` computes
the four aggregate counts (max total input channels, max total output
channels, max input buses, max output buses) as the maximum over all
space-separated tokens' descriptors, independently per direction — never as
a sum. -/
theorem parse_aggregates_are_max (s : String) (cfgs : List IOConfig)
    (tIn tOut bIn bOut : Nat)
    (h : ParseChannelIOStr s = some (cfgs, tIn, tOut, bIn, bOut)) :
    tIn = maxList (cfgs.map fun k => totalChans k.inBuses) ∧
    tOut = maxList (cfgs.map fun k => totalChans k.outBuses) ∧
    bIn = maxList (cfgs.map fun k => k.inBuses.length) ∧
    bOut = maxList (cfgs.map fun k => k.outBuses.length) := by
  unfold ParseChannelIOStr at h
  cases hts : tokensOf s.data with
  | nil => rw [hts] at h; exact absurd h (by simp)
  | cons t ts =>
    rw [hts] at h
    obtain ⟨news, hcfgs, _, hp, hq, hr, hw⟩ :=
      parseLoop_some_eq (t :: ts) [] 0 0 0 0 cfgs tIn tOut bIn bOut h
    simp only [List.nil_append] at hcfgs
    subst hcfgs
    refine ⟨?_, ?_, ?_, ?_⟩ <;> simp [hp, hq, hr, hw]

/-- Witness for C1 at the concrete configuration string "1-1 2-2": two
descriptors are produced and the aggregate totals are 2 and 2 (the max
over the tokens, not the sum 3). -/
theorem parse_aggregates_are_max_witness :
    ParseChannelIOStr "1-1 2-2" =
      some ([⟨[.fixed 1], [.fixed 1]⟩, ⟨[.fixed 2], [.fixed 2]⟩], 2, 2, 1, 1) ∧
    (2 = maxList ([IOConfig.mk [.fixed 1] [.fixed 1],
                   IOConfig.mk [.fixed 2] [.fixed 2]].map
          fun k => totalChans k.inBuses) ∧
     2 = maxList ([IOConfig.mk [.fixed 1] [.fixed 1],
                   IOConfig.mk [.fixed 2] [.fixed 2]].map
          fun k => totalChans k.outBuses) ∧
     1 = maxList ([IOConfig.mk [.fixed 1] [.fixed 1],
                   IOConfig.mk [.fixed 2] [.fixed 2]].map
          fun k => k.inBuses.length) ∧
     1 = maxList ([IOConfig.mk [.fixed 1] [.fixed 1],
                   IOConfig.mk [.fixed 2] [.fixed 2]].map
          fun k => k.outBuses.length)) :=
  ⟨by decide,
   parse_aggregates_are_max "1-1 2-2"
     [⟨[.fixed 1], [.fixed 1]⟩, ⟨[.fixed 2], [.fixed 2]⟩] 2 2 1 1 (by decide)⟩

/-- C6: `ParseChannelIOStr "1.1-1"` produces exactly one descriptor, with
two input buses of one channel each and one mono output bus, and the
max-input-bus aggregate is 2 (total input channels 2, total output
channels 1, max output buses 1). -/
theorem parse_sidechain_example :
    ParseChannelIOStr "1.1-1" =
      some ([⟨[.fixed 1, .fixed 1], [.fixed 1]⟩], 2, 1, 2, 1) := by decide


/-! ## C7: exact characterization of parse failures -/

/-- A bus entry is well formed when it is the wildcard symbol or a decimal
numeral with a positive value (the vocabulary of the error-handling rule:
anything that is neither a positive integer nor the wildcard, and any zero
entry, is rejected). -/
def GoodEntry (e : List Char) : Prop :=
  e = ['*'] ∨ (e ≠ [] ∧ (∀ c ∈ e, c.isDigit) ∧ 0 < digitsToNat e)

/-- The bus entries of a token: the `.`-separated fragments of its input
side and of its output side. -/
def entriesOfToken (t : List Char) : List (List Char) :=
  match splitAtFirst '-' t with
  | none => []
  | some (i, o) => splitOnChar '.' i ++ splitOnChar '.' o

/-- A token is malformed when it misses the hyphen separator, or one of
its bus entries is not well formed. -/
def BadToken (t : List Char) : Prop :=
  '-' ∉ t ∨ ∃ e ∈ entriesOfToken t, ¬ GoodEntry e

theorem parseBusChans_eq_none_iff (e : List Char) :
    parseBusChans e = none ↔ ¬ GoodEntry e := by
  by_cases h1 : e = ['*']
  · simp [parseBusChans, GoodEntry, h1]
  · by_cases h2 : (!e.isEmpty && e.all Char.isDigit) = true
    · simp only [Bool.and_eq_true, Bool.not_eq_true', List.isEmpty_eq_false,
        List.all_eq_true] at h2
      by_cases h3 : digitsToNat e = 0
      · simp [parseBusChans, GoodEntry, h1, h2, h3]
      · simp [parseBusChans, GoodEntry, h1, h2, h3, Nat.pos_of_ne_zero]
    · have h2' : e = [] ∨ ∃ c ∈ e, ¬ (c.isDigit = true) := by
        by_cases he : e = []
        · exact Or.inl he
        · refine Or.inr ?_
          simpa [Bool.and_eq_true, Bool.not_eq_true', List.isEmpty_eq_false,
            List.all_eq_true, not_and_or, not_forall, he, Bool.not_eq_true]
            using h2
      have hnone : parseBusChans e = none := by
        simp only [parseBusChans, if_neg h1]
        have hcond : (!e.isEmpty && e.all Char.isDigit) = false := by
          simpa using h2
        simp [hcond]
      rw [hnone]
      simp only [GoodEntry, not_or, true_iff]
      refine ⟨h1, fun hclaim => ?_⟩
      obtain ⟨hne, hall, _⟩ := hclaim
      rcases h2' with h | ⟨c, hc, hnd⟩
      · exact hne h
      · exact hnd (hall c hc)


theorem parseEntries_eq_none_iff (es : List (List Char)) :
    parseEntries es = none ↔ ∃ e ∈ es, parseBusChans e = none := by
  induction es with
  | nil => simp [parseEntries]
  | cons e rest ih =>
    cases h : parseBusChans e with
    | none => simp [parseEntries, h]
    | some b =>
      cases h2 : parseEntries rest with
      | none =>
        simp only [parseEntries, h, h2, List.mem_cons]
        constructor
        · intro _
          obtain ⟨e2, he2, hn⟩ := ih.mp h2
          exact ⟨e2, Or.inr he2, hn⟩
        · intro _; trivial
      | some bs =>
        simp only [parseEntries, h, h2, List.mem_cons]
        constructor
        · intro hc; exact absurd hc (by simp)
        · rintro ⟨e2, he2 | he2, hn⟩
          · rw [he2] at hn; exact absurd hn (by simp [h])
          · have := ih.mpr ⟨e2, he2, hn⟩
            exact absurd this (by simp [h2])

theorem splitAtFirst_eq_none_iff (sep : Char) (l : List Char) :
    splitAtFirst sep l = none ↔ sep ∉ l := by
  induction l with
  | nil => simp [splitAtFirst]
  | cons c rest ih =>
    by_cases hc : c = sep
    · simp [splitAtFirst, hc]
    · cases h : splitAtFirst sep rest with
      | none =>
        have hrest : sep ∉ rest := ih.mp h
        have hne : ¬ sep = c := fun hh => hc hh.symm
        simp [splitAtFirst, hc, h, hrest, hne]
      | some p =>
        have : ¬ sep ∉ rest := fun hn => by
          rw [ih.mpr hn] at h; exact absurd h (by simp)
        simp only [splitAtFirst, if_neg hc, h, List.mem_cons]
        constructor
        · intro hcc; exact absurd hcc (by simp)
        · intro hn
          exact absurd (fun hin => hn (Or.inr hin)) this

theorem parseToken_eq_none_iff (t : List Char) :
    parseToken t = none ↔ BadToken t := by
  unfold parseToken BadToken entriesOfToken
  cases h : splitAtFirst '-' t with
  | none =>
    have : '-' ∉ t := (splitAtFirst_eq_none_iff '-' t).mp h
    simp [this]
  | some p =>
    obtain ⟨i, o⟩ := p
    have hmem : '-' ∈ t := by
      by_contra hn
      rw [(splitAtFirst_eq_none_iff '-' t).mpr hn] at h
      exact absurd h (by simp)
    have hiff : ∀ side : List Char, parseSide side = none ↔
        ∃ e ∈ splitOnChar '.' side, ¬ GoodEntry e := by
      intro side
      rw [parseSide, parseEntries_eq_none_iff]
      constructor
      · rintro ⟨e, he, hn⟩
        exact ⟨e, he, (parseBusChans_eq_none_iff e).mp hn⟩
      · rintro ⟨e, he, hn⟩
        exact ⟨e, he, (parseBusChans_eq_none_iff e).mpr hn⟩
    cases hi : parseSide i with
    | none =>
      obtain ⟨e, he, hn⟩ := (hiff i).mp hi
      simp only [hmem, not_true, false_or]
      constructor
      · intro _
        exact ⟨e, List.mem_append_left _ he, hn⟩
      · intro _; rw [hi]
    | some ib =>
      cases ho : parseSide o with
      | none =>
        obtain ⟨e, he, hn⟩ := (hiff o).mp ho
        simp only [hmem, not_true, false_or]
        constructor
        · intro _
          exact ⟨e, List.mem_append_right _ he, hn⟩
        · intro _; rw [hi, ho]
      | some ob =>
        simp only [hmem, not_true, false_or]
        constructor
        · intro hc; rw [hi, ho] at hc; exact absurd hc (by simp)
        · rintro ⟨e, he, hn⟩
          rcases List.mem_append.mp he with he2 | he2
          · have hni : parseSide i = none := (hiff i).mpr ⟨e, he2, hn⟩
            rw [hni] at hi; simp at hi
          · have hno : parseSide o = none := (hiff o).mpr ⟨e, he2, hn⟩
            rw [hno] at ho; simp at ho

theorem parseLoop_eq_none_iff (ts : List (List Char)) :
    ∀ acc a b c d, parseLoop ts acc a b c d = none ↔
      ∃ t ∈ ts, parseToken t = none := by
  induction ts with
  | nil => intro acc a b c d; simp [parseLoop]
  | cons t ts ih =>
    intro acc a b c d
    cases h : parseToken t with
    | none => simp [parseLoop, h]
    | some cfg =>
      simp only [parseLoop, h, List.mem_cons]
      rw [ih]
      constructor
      · rintro ⟨t2, ht2, hn⟩; exact ⟨t2, Or.inr ht2, hn⟩
      · rintro ⟨t2, ht2 | ht2, hn⟩
        · rw [ht2] at hn; exact absurd hn (by simp [h])
        · exact ⟨t2, ht2, hn⟩


theorem splitOnChar_ne_nil (sep : Char) (l : List Char) :
    splitOnChar sep l ≠ [] := by
  cases l with
  | nil => simp [splitOnChar]
  | cons c rest =>
    simp only [splitOnChar]
    cases splitOnChar sep rest with
    | nil => simp
    | cons cur done =>
      by_cases hc : c = sep <;> simp [hc]

/-- A configuration string has no token exactly when it consists of
spaces only (in particular when it is empty): insignificant whitespace,
spec §6. -/
theorem tokensOf_eq_nil_iff (l : List Char) :
    tokensOf l = [] ↔ ∀ c ∈ l, c = ' ' := by
  have key : ∀ m : List Char, (∀ t ∈ splitOnChar ' ' m, t = ([] : List Char))
      ↔ ∀ c ∈ m, c = ' ' := by
    intro m
    induction m with
    | nil => simp [splitOnChar]
    | cons c rest ih =>
      cases hs : splitOnChar ' ' rest with
      | nil => exact absurd hs (splitOnChar_ne_nil ' ' rest)
      | cons cur done =>
        rw [hs] at ih
        by_cases hc : c = ' '
        · simp only [splitOnChar, hs, if_pos hc, List.mem_cons]
          constructor
          · intro h c2 hc2
            rcases hc2 with h2 | h2
            · rw [h2]; exact hc
            · exact (ih.mp fun t ht => h t (Or.inr (List.mem_cons.mp ht))) c2 h2
          · intro h t ht
            rcases ht with h2 | h2
            · rw [h2]
            · exact (ih.mpr fun c2 hc2 => h c2 (Or.inr hc2)) t (List.mem_cons.mpr h2)
        · simp only [splitOnChar, hs, if_neg hc, List.mem_cons]
          constructor
          · intro h
            exact absurd (h (c :: cur) (Or.inl rfl)) (by simp)
          · intro h
            exact absurd (h c (Or.inl rfl)) hc
  rw [tokensOf, List.filter_eq_nil_iff]
  constructor
  · intro h
    exact (key l).mp fun t ht => by simpa using h t ht
  · intro h t ht
    simp [(key l).mpr h t ht]

/-- C7: `ParseChannelIOStr` fails — reports no configuration — exactly on
a blank configuration string (empty, or spaces only: whitespace is
insignificant per the grammar), a token missing the hyphen separator, or a
bus entry that is neither the wildcard symbol nor a positive integer
(zero-valued entries included). -/
theorem parse_fails_iff (s : String) :
    ParseChannelIOStr s = none ↔
      (∀ c ∈ s.data, c = ' ') ∨ ∃ t ∈ tokensOf s.data, BadToken t := by
  unfold ParseChannelIOStr
  cases hts : tokensOf s.data with
  | nil =>
    constructor
    · intro _
      exact Or.inl ((tokensOf_eq_nil_iff s.data).mp hts)
    · intro _
      rfl
  | cons t ts =>
    have hblank : ¬ ∀ c ∈ s.data, c = ' ' := by
      intro hall
      rw [(tokensOf_eq_nil_iff s.data).mpr hall] at hts
      exact absurd hts (by simp)
    rw [parseLoop_eq_none_iff (t :: ts) [] 0 0 0 0]
    constructor
    · rintro ⟨t2, ht2, hn⟩
      exact Or.inr ⟨t2, ht2, (parseToken_eq_none_iff t2).mp hn⟩
    · rintro (h | ⟨t2, ht2, hb⟩)
      · exact absurd h hblank
      · exact ⟨t2, ht2, (parseToken_eq_none_iff t2).mpr hb⟩


/-! ## C2: the legality check (`LegalIO`) -/

/-- Modelled from the spec: whether one side (direction) of a descriptor
accepts a requested channel count.  The sentinel -1 leaves this direction
unchecked; a side containing a wildcard bus accepts any non-negative
count; otherwise the side's total channel count must equal the request
(spec §4.2). -/
def sideMatches (buses : List BusChans) (n : Int) : Bool :=
  if n = -1 then true
  else if hasWildcard buses then decide (0 ≤ n)
  else decide ((totalChans buses : Int) = n)

/-- Modelled from the spec: `IPlugProcessor::LegalIO` (declared at
IPlugProcessor.h:161, body in the missing IPlugProcessor.cpp): scan the
parsed descriptors for one whose input side matches `nIn` and whose
output side matches `nOut`.  Named `legalIOCheck` in this development. -/
def legalIOCheck (cfgs : List IOConfig) (nIn nOut : Int) : Bool :=
  cfgs.any fun c => sideMatches c.inBuses nIn && sideMatches c.outBuses nOut

/-- One direction of the legality check in the claim's words: a wildcard
bus accepts any non-negative channel count at its position; a side with no
wildcard matches exactly its total channel count. -/
def SideAccepts (buses : List BusChans) (n : Int) : Prop :=
  ((∃ b ∈ buses, b = BusChans.wildcard) ∧ 0 ≤ n) ∨
  ((∀ b ∈ buses, b ≠ BusChans.wildcard) ∧ (totalChans buses : Int) = n)

/-- The claim's matching relation: the pair is accepted by a descriptor,
each direction being either unchecked (sentinel -1) or accepted by the
corresponding side. -/
def MatchesDescriptor (c : IOConfig) (nIn nOut : Int) : Prop :=
  (nIn = -1 ∨ SideAccepts c.inBuses nIn) ∧
  (nOut = -1 ∨ SideAccepts c.outBuses nOut)

theorem isWildcardB_eq_true_iff (b : BusChans) :
    isWildcardB b = true ↔ b = BusChans.wildcard := by
  cases b <;> simp [isWildcardB]

theorem hasWildcard_eq_true_iff (bs : List BusChans) :
    hasWildcard bs = true ↔ ∃ b ∈ bs, b = BusChans.wildcard := by
  simp [hasWildcard, List.any_eq_true, isWildcardB_eq_true_iff]

theorem sideMatches_iff (buses : List BusChans) (n : Int) :
    sideMatches buses n = true ↔ (n = -1 ∨ SideAccepts buses n) := by
  by_cases h1 : n = -1
  · simp [sideMatches, h1]
  · by_cases h2 : hasWildcard buses = true
    · have hw := (hasWildcard_eq_true_iff buses).mp h2
      obtain ⟨b, hb, hbw⟩ := hw
      simp only [sideMatches, if_neg h1, h2, if_true, decide_eq_true_eq,
        SideAccepts]
      constructor
      · intro hn
        exact Or.inr (Or.inl ⟨⟨b, hb, hbw⟩, hn⟩)
      · rintro (he | ⟨_, hn⟩ | ⟨hall, _⟩)
        · exact absurd he h1
        · exact hn
        · exact absurd hbw (hall b hb)
    · have hnw : ∀ b ∈ buses, b ≠ BusChans.wildcard := by
        intro b hb hbw
        exact h2 ((hasWildcard_eq_true_iff buses).mpr ⟨b, hb, hbw⟩)
      have h2f : hasWildcard buses = false := by
        simpa using h2
      simp only [sideMatches, if_neg h1, h2f, Bool.false_eq_true, if_false,
        decide_eq_true_eq, SideAccepts]
      constructor
      · intro hn
        exact Or.inr (Or.inr ⟨hnw, hn⟩)
      · rintro (he | ⟨⟨b, hb, hbw⟩, _⟩ | ⟨_, hn⟩)
        · exact absurd he h1
        · exact absurd hbw (hnw b hb)
        · exact hn

/-- C2: the legality check returns true exactly when the requested pair
matches at least one parsed descriptor (wildcard buses accepting any
non-negative count, the sentinel -1 leaving a direction unchecked); for
the topology "1-1" the pair (1,1) is legal and (2,1) is not, and for the
wildcard topology "*-2" every non-negative input count with 2 outputs is
legal. -/
theorem legalIO_correct :
    (∀ (cfgs : List IOConfig) (nIn nOut : Int),
        legalIOCheck cfgs nIn nOut = true ↔
          ∃ c ∈ cfgs, MatchesDescriptor c nIn nOut) ∧
    (∀ res, ParseChannelIOStr "1-1" = some res →
        legalIOCheck res.1 1 1 = true ∧ legalIOCheck res.1 2 1 = false) ∧
    (∀ res (n : Int), ParseChannelIOStr "*-2" = some res → 0 ≤ n →
        legalIOCheck res.1 n 2 = true) := by
  refine ⟨?_, ?_, ?_⟩
  · intro cfgs nIn nOut
    rw [legalIOCheck, List.any_eq_true]
    constructor
    · rintro ⟨c, hc, hm⟩
      rw [Bool.and_eq_true] at hm
      refine ⟨c, hc, ?_, ?_⟩
      · exact ((sideMatches_iff c.inBuses nIn).mp hm.1)
      · exact ((sideMatches_iff c.outBuses nOut).mp hm.2)
    · rintro ⟨c, hc, hmi, hmo⟩
      refine ⟨c, hc, ?_⟩
      rw [Bool.and_eq_true]
      exact ⟨(sideMatches_iff c.inBuses nIn).mpr hmi,
             (sideMatches_iff c.outBuses nOut).mpr hmo⟩
  · intro res h
    have h2 : ParseChannelIOStr "1-1" =
        some ([⟨[BusChans.fixed 1], [BusChans.fixed 1]⟩], 1, 1, 1, 1) := by
      decide
    have hres := Option.some.inj (h.symm.trans h2)
    rw [hres]
    exact ⟨by decide, by decide⟩
  · intro res n h hn
    have h2 : ParseChannelIOStr "*-2" =
        some ([⟨[BusChans.wildcard], [BusChans.fixed 2]⟩], 0, 2, 1, 1) := by
      decide
    have hres := Option.some.inj (h.symm.trans h2)
    rw [hres]
    simp only [legalIOCheck, List.any_cons, List.any_nil, Bool.or_false,
      Bool.and_eq_true]
    refine ⟨?_, by decide⟩
    by_cases hn1 : n = -1
    · simp [sideMatches, hn1]
    · simp [sideMatches, hn1, hasWildcard, isWildcardB, hn]

/-- Witness for C2 at the concrete topologies "1-1" (pair (1,1) legal,
pair (2,1) illegal) and "*-2" (input count 5 with 2 outputs legal). -/
theorem legalIO_correct_witness :
    (legalIOCheck [⟨[BusChans.fixed 1], [BusChans.fixed 1]⟩] 1 1 = true ∧
     legalIOCheck [⟨[BusChans.fixed 1], [BusChans.fixed 1]⟩] 2 1 = false) ∧
    legalIOCheck [⟨[BusChans.wildcard], [BusChans.fixed 2]⟩] 5 2 = true :=
  ⟨legalIO_correct.2.1
     ([⟨[BusChans.fixed 1], [BusChans.fixed 1]⟩], 1, 1, 1, 1) (by decide),
   legalIO_correct.2.2
     ([⟨[BusChans.wildcard], [BusChans.fixed 2]⟩], 0, 2, 1, 1) 5 (by decide)
     (by decide)⟩


/-! ## C3: bypassed passthrough through the latency delay line

Modelled from the spec: `NChanDelayLine` (NChanDelay.h, not among the
provided sources) is a multichannel ring buffer of length equal to the
unit's reported latency, initialised to silence; each frame writes one
sample per channel and reads the sample written latency frames ago, and a
zero-length line returns the just-written sample (spec §4.5).
`PassThroughBuffers` (IPlugProcessor.h:219-220, body in the missing
IPlugProcessor.cpp) runs the bypassed input through this line into the
output (spec §4.4 passthrough mode).  The delay-line state is the queue of
pending samples, oldest first. -/

/-- One frame of the delay line on one channel: emit the oldest pending
sample and append the incoming one; with no pending storage (zero
latency) the incoming sample is emitted at once. -/
def delayStep (st : List Int) (x : Int) : List Int × Int :=
  match st with
  | [] => ([], x)
  | y :: rest => (rest ++ [x], y)

/-- Run the delay line over a block of frames on one channel, returning
the final state and the emitted output frames. -/
def delayRun : List Int → List Int → List Int × List Int
  | st, [] => (st, [])
  | st, x :: xs =>
    let p := delayStep st x
    let q := delayRun p.1 xs
    (q.1, p.2 :: q.2)

/-- The bypassed passthrough of one channel for one block starting from a
freshly sized (silent) delay line of length `L`, the unit's reported
latency. -/
def passThroughChannel (L : Nat) (input : List Int) : List Int :=
  (delayRun (List.replicate L 0) input).2

/-- `PassThroughBuffers`: the bypassed passthrough applied to every
channel of the block. -/
def passThroughBuffers (L : Nat) (chans : List (List Int)) :
    List (List Int) :=
  chans.map (passThroughChannel L)

/-- Closed form of the delay-line run: the block's output is the first
`nFrames` samples of (pending state ++ input), and the final state is the
rest. -/
theorem delayRun_eq (xs : List Int) : ∀ st : List Int,
    delayRun st xs = ((st ++ xs).drop xs.length, (st ++ xs).take xs.length) := by
  induction xs with
  | nil => intro st; simp [delayRun]
  | cons x xs ih =>
    intro st
    cases st with
    | nil =>
      simp [delayRun, delayStep, ih]
    | cons y rest =>
      have hassoc : rest ++ [x] ++ xs = rest ++ x :: xs := by
        rw [List.append_assoc, List.singleton_append]
      simp only [delayRun, delayStep, ih, List.length_cons, List.cons_append,
        List.drop_succ_cons, List.take_succ_cons, hassoc]

/-- C3: with bypass active, the sample presented at input frame `i` of any
channel appears bit-identically at output frame `i + L` of the same
channel, where `L` is the unit's reported latency. -/
theorem bypass_passthrough_latency (L c i : Nat) (chans : List (List Int))
    (buf : List Int) (hc : chans[c]? = some buf) (hi : i + L < buf.length) :
    ∃ out, (passThroughBuffers L chans)[c]? = some out ∧
      out[i + L]? = buf[i]? := by
  refine ⟨passThroughChannel L buf, ?_, ?_⟩
  · rw [passThroughBuffers, List.getElem?_map, hc]
    rfl
  · rw [passThroughChannel, delayRun_eq]
    have hlen : L ≤ i + L := Nat.le_add_left L i
    rw [List.getElem?_take_of_lt hi]
    rw [List.getElem?_append_right (by simp [hlen])]
    simp [Nat.add_sub_cancel]

/-- Witness for C3: latency 2, one channel with block [10, 20, 30, 40];
the sample at input frame 1 (value 20) appears at output frame 3. -/
theorem bypass_passthrough_latency_witness :
    ∃ out, (passThroughBuffers 2 [[10, 20, 30, 40]])[0]? = some out ∧
      out[3]? = ([10, 20, 30, 40] : List Int)[1]? :=
  bypass_passthrough_latency 2 0 1 [[10, 20, 30, 40]] [10, 20, 30, 40]
    (by decide) (by decide)


/-! ## C4, C8: the channel registry and per-block buffer attachment

`IChannelData` (IPlugStructs.h, not among the provided sources) is
modelled from the spec §3: one slot per physical channel position holding
a label, a live connection flag, and a transient non-owning reference to
the current block's sample buffer.  `AttachInputBuffers` /
`AttachOutputBuffers` (IPlugProcessor.h:215-218, bodies in the missing
IPlugProcessor.cpp) share the same shape per spec §4.4 and are modelled by
one attach operation; a host pointer is `Option (List Int)` (`none` for an
invalid/null pointer), and a slot without a bound host buffer is serviced
by the internal zero-filled scratch (`ZeroScratchBuffers`,
IPlugProcessor.h:224, keeps the scratch at silence). -/

/-- A channel registry slot (`IChannelData`). -/
structure IChannelData where
  mConnected : Bool
  mLabel : String
  mIncomingData : Option (List Int)
deriving DecidableEq, Repr

/-- The zero-filled scratch buffer for one block (`ZeroScratchBuffers`
keeps it at silence). -/
def zeroScratch (nFrames : Nat) : List Int :=
  List.replicate nFrames 0

/-- Modelled from the spec: attach one slot for the block.  A connected
slot is bound to the host's pointer for this position (which may itself be
null); a disconnected slot is never bound to host data, so it will be
serviced by the zero scratch. -/
def attachOne (ch : IChannelData) (hostBuf : Option (List Int)) :
    IChannelData :=
  { ch with mIncomingData := if ch.mConnected then hostBuf else none }

/-- Modelled from the spec: attach a block's host pointers to the
registry; positions past the host-supplied array get no host pointer
(zero scratch), spec §4.4 attach. -/
def attachBuffers (chans : List IChannelData)
    (host : List (Option (List Int))) : List IChannelData :=
  chans.zipWith attachOne (host ++ List.replicate chans.length none)

/-- The buffer a slot presents to the user processing routine: its bound
host buffer, or the zero-filled scratch when none is bound. -/
def observedBuffer (nFrames : Nat) (ch : IChannelData) : List Int :=
  ch.mIncomingData.getD (zeroScratch nFrames)

/-- The full per-channel buffer array handed to `ProcessBlock`
(IPlugProcessor.h:32-39): one valid buffer per registry slot. -/
def processBlockBuffers (nFrames : Nat) (chans : List IChannelData) :
    List (List Int) :=
  chans.map (observedBuffer nFrames)

/-- C4: after attach, every channel slot presents a buffer to
`ProcessBlock` (never a null pointer), and a slot whose connected flag is
false presents the zero-filled scratch — all zeros for the whole block —
regardless of the host pointers and of any stale prior-block reference
held in the slot. -/
theorem attach_buffers_safe (nFrames : Nat) (chans : List IChannelData)
    (host : List (Option (List Int))) (c : Nat) (ch : IChannelData)
    (hc : chans[c]? = some ch) :
    (∃ buf, (processBlockBuffers nFrames (attachBuffers chans host))[c]? =
        some buf) ∧
    (ch.mConnected = false →
      (processBlockBuffers nFrames (attachBuffers chans host))[c]? =
        some (zeroScratch nFrames)) ∧
    (∀ x ∈ zeroScratch nFrames, x = 0) := by
  have hclt : c < chans.length := by
    by_contra hlt
    rw [List.getElem?_eq_none (Nat.le_of_not_lt hlt)] at hc
    exact absurd hc (by simp)
  have hpad : c < (host ++ List.replicate chans.length none).length := by
    rw [List.length_append, List.length_replicate]
    omega
  obtain ⟨hb, hhb⟩ :
      ∃ hb, (host ++ List.replicate chans.length none)[c]? = some hb :=
    ⟨_, List.getElem?_eq_getElem hpad⟩
  have hatt : (attachBuffers chans host)[c]? = some (attachOne ch hb) := by
    rw [attachBuffers, List.getElem?_zipWith', hc, hhb]
    rfl
  have hproc : (processBlockBuffers nFrames (attachBuffers chans host))[c]? =
      some (observedBuffer nFrames (attachOne ch hb)) := by
    rw [processBlockBuffers, List.getElem?_map, hatt]
    rfl
  refine ⟨⟨_, hproc⟩, ?_, ?_⟩
  · intro hconn
    rw [hproc]
    simp [observedBuffer, attachOne, hconn]
  · intro x hx
    exact (List.eq_of_mem_replicate hx)

/-- Witness for C4: a two-slot registry whose second slot is disconnected
and still holds a stale reference to [5, 5]; the host supplies only one
pointer.  Both slots present a buffer, and the disconnected slot presents
the zero scratch [0, 0]. -/
theorem attach_buffers_safe_witness :
    (∃ buf, (processBlockBuffers 2 (attachBuffers
        [⟨true, "input 1", none⟩, ⟨false, "input 2", some [5, 5]⟩]
        [some [1, 2]]))[1]? = some buf) ∧
    ((false = false) →
      (processBlockBuffers 2 (attachBuffers
        [⟨true, "input 1", none⟩, ⟨false, "input 2", some [5, 5]⟩]
        [some [1, 2]]))[1]? = some (zeroScratch 2)) ∧
    (∀ x ∈ zeroScratch 2, x = 0) := by
  have h := attach_buffers_safe 2
    [⟨true, "input 1", none⟩, ⟨false, "input 2", some [5, 5]⟩]
    [some [1, 2]] 1 ⟨false, "input 2", some [5, 5]⟩ (by rfl)
  exact ⟨h.1, fun _ => h.2.1 (by rfl), h.2.2⟩

/-- Detach/cleanup at block end: every slot's transient buffer reference
is cleared (spec §4.4 detach: no slot may retain a reference past the
block in which it was attached). -/
def detachAll (chans : List IChannelData) : List IChannelData :=
  chans.map fun ch => { ch with mIncomingData := none }

/-- `k` attach-then-detach cycles against the same host pointers. -/
def attachDetachCycles :
    Nat → List (Option (List Int)) → List IChannelData → List IChannelData
  | 0, _, chans => chans
  | k + 1, host, chans =>
    attachDetachCycles k host (detachAll (attachBuffers chans host))

theorem detachAll_attachBuffers (chans : List IChannelData)
    (host : List (Option (List Int))) :
    detachAll (attachBuffers chans host) = detachAll chans := by
  rw [attachBuffers]
  have key : ∀ (cs : List IChannelData) (h : List (Option (List Int))),
      cs.length ≤ h.length →
      detachAll (cs.zipWith attachOne h) = detachAll cs := by
    intro cs
    induction cs with
    | nil => intro h _; simp [detachAll]
    | cons ch cs ih =>
      intro h hlen
      cases h with
      | nil => simp at hlen
      | cons hb hs =>
        simp only [List.zipWith_cons_cons, detachAll, List.map_cons]
        rw [List.length_cons, List.length_cons, Nat.add_le_add_iff_right]
          at hlen
        have := ih hs hlen
        simp only [detachAll] at this
        rw [this]
        rfl
  exact key chans _ (by rw [List.length_append, List.length_replicate]; omega)

theorem attachDetachCycles_succ_eq (host : List (Option (List Int))) :
    ∀ (k : Nat) (chans : List IChannelData),
      attachDetachCycles (k + 1) host chans = detachAll chans := by
  intro k
  induction k with
  | zero =>
    intro chans
    rw [attachDetachCycles, attachDetachCycles, detachAll_attachBuffers]
  | succ k ih =>
    intro chans
    rw [attachDetachCycles, ih, detachAll_attachBuffers, detachAll,
      detachAll, List.map_map]
    rfl

/-- The persistent metadata of a slot: its connected flag and its label
(everything but the transient buffer reference). -/
def slotMeta (ch : IChannelData) : Bool × String :=
  (ch.mConnected, ch.mLabel)

/-- C8: any number of attach-then-detach cycles leaves every slot's
connected flag and label exactly as they were; only the transient buffer
reference changes, and after at least one cycle (block end) it is cleared
on every slot. -/
theorem attach_detach_cycles_preserve_registry (k : Nat)
    (host : List (Option (List Int))) (chans : List IChannelData) :
    (∀ c : Nat, ((attachDetachCycles k host chans)[c]?).map slotMeta =
      (chans[c]?).map slotMeta) ∧
    (1 ≤ k → ∀ (c : Nat) (ch : IChannelData),
      (attachDetachCycles k host chans)[c]? = some ch →
      ch.mIncomingData = none) := by
  cases k with
  | zero =>
    refine ⟨fun c => rfl, fun hk => absurd hk (by simp)⟩
  | succ k =>
    rw [attachDetachCycles_succ_eq]
    constructor
    · intro c
      rw [detachAll, List.getElem?_map]
      cases chans[c]? <;> rfl
    · intro _ c ch hch
      rw [detachAll, List.getElem?_map] at hch
      cases hc : chans[c]? with
      | none => rw [hc] at hch; exact absurd hch (by simp)
      | some ch0 =>
        rw [hc] at hch
        have : ({ ch0 with mIncomingData := none } : IChannelData) = ch :=
          Option.some.inj hch
        rw [← this]

/-- Witness for C8: two cycles on a one-slot registry holding a stale
reference; flag and label survive and the reference is cleared. -/
theorem attach_detach_cycles_witness :
    ((attachDetachCycles 2 [some [7]] [⟨true, "input 1", some [9]⟩])[0]?).map
        slotMeta =
      (([(⟨true, "input 1", some [9]⟩ : IChannelData)])[0]?).map slotMeta ∧
    (⟨true, "input 1", none⟩ : IChannelData).mIncomingData = none :=
  ⟨(attach_detach_cycles_preserve_registry 2 [some [7]]
      [⟨true, "input 1", some [9]⟩]).1 0,
   (attach_detach_cycles_preserve_registry 2 [some [7]]
      [⟨true, "input 1", some [9]⟩]).2 (by decide) 0
      ⟨true, "input 1", none⟩ (by rfl)⟩


/-! ## C5: accumulating routing mode

`ProcessBuffersAccumulating` (IPlugProcessor.h:223, body in the missing
IPlugProcessor.cpp) is modelled from the spec §4.4: when an output channel
participates in more than one output bus, each bus's produced block is
summed into the physical output buffer rather than overwriting it. -/

/-- Add one bus's produced block into a physical output buffer
sample-wise. -/
def accumulateInto (dst src : List Int) : List Int :=
  List.zipWith (fun a b => a + b) dst src

/-- One accumulating step: route one bus (mapped physical channel, block
of produced samples) into the output buffers. -/
def accStep (outs : List (List Int)) (p : Nat × List Int) :
    List (List Int) :=
  outs.set p.1 (accumulateInto (outs.getD p.1 []) p.2)

/-- Accumulating routing of one block: starting from silent output
buffers (one per physical channel), sum each bus's produced block into
the physical channel that bus is mapped onto. -/
def routeAccumulating (nFrames nChans : Nat)
    (busOuts : List (Nat × List Int)) : List (List Int) :=
  busOuts.foldl accStep (List.replicate nChans (zeroScratch nFrames))

/-- The arithmetic sum, at frame `t`, of the contributions of every bus
mapped onto physical channel `c`. -/
def contribSum (busOuts : List (Nat × List Int)) (c t : Nat) : Int :=
  ((busOuts.filter fun p => p.1 == c).map fun p => p.2.getD t 0).sum

theorem length_accumulateInto (dst src : List Int)
    (h : dst.length = src.length) :
    (accumulateInto dst src).length = dst.length := by
  simp [accumulateInto, h]

theorem getD_accumulateInto (dst src : List Int) (t : Nat)
    (h1 : t < dst.length) (h2 : t < src.length) :
    (accumulateInto dst src).getD t 0 = dst.getD t 0 + src.getD t 0 := by
  rw [accumulateInto, List.getD_eq_getElem?_getD, List.getElem?_zipWith',
    List.getElem?_eq_getElem h1, List.getElem?_eq_getElem h2,
    List.getD_eq_getElem?_getD, List.getD_eq_getElem?_getD,
    List.getElem?_eq_getElem h1, List.getElem?_eq_getElem h2]
  rfl

theorem getD_zeroScratch (nFrames t : Nat) :
    (zeroScratch nFrames).getD t 0 = 0 := by
  rw [zeroScratch, List.getD_eq_getElem?_getD, List.getElem?_replicate]
  by_cases h : t < nFrames <;> simp [h]

theorem routeAcc_foldl (nFrames : Nat) (busOuts : List (Nat × List Int)) :
    ∀ outs : List (List Int),
      (∀ buf ∈ outs, buf.length = nFrames) →
      (∀ p ∈ busOuts, p.1 < outs.length ∧ p.2.length = nFrames) →
      ∀ c t : Nat, t < nFrames →
        ((busOuts.foldl accStep outs).getD c []).getD t 0 =
          (outs.getD c []).getD t 0 + contribSum busOuts c t := by
  induction busOuts with
  | nil =>
    intro outs _ _ c t _
    simp [contribSum]
  | cons p l ih =>
    intro outs houts hl c t ht
    obtain ⟨hp1, hp2⟩ := hl p (List.mem_cons_self p l)
    have hdst : (outs.getD p.1 []).length = nFrames := by
      rw [List.getD_eq_getElem?_getD, List.getElem?_eq_getElem hp1]
      exact houts _ (List.getElem_mem hp1)
    have hnew : (accumulateInto (outs.getD p.1 []) p.2).length = nFrames := by
      rw [length_accumulateInto _ _ (by rw [hdst, hp2])]
      exact hdst
    have houts2 : ∀ buf ∈ accStep outs p, buf.length = nFrames := by
      intro buf hbuf
      rcases List.mem_or_eq_of_mem_set hbuf with h | h
      · exact houts buf h
      · rw [h]; exact hnew
    have hl2 : ∀ q ∈ l, q.1 < (accStep outs p).length ∧
        q.2.length = nFrames := by
      intro q hq
      have := hl q (List.mem_cons_of_mem p hq)
      rwa [accStep, List.length_set]
    rw [List.foldl_cons, ih (accStep outs p) houts2 hl2 c t ht]
    by_cases hpc : p.1 = c
    · subst hpc
      have hset : (accStep outs p).getD p.1 [] =
          accumulateInto (outs.getD p.1 []) p.2 := by
        rw [accStep, List.getD_eq_getElem?_getD,
          List.getElem?_set_self hp1]
        rfl
      rw [hset, getD_accumulateInto _ _ t (by omega) (by omega)]
      have hfil : contribSum (p :: l) p.1 t =
          p.2.getD t 0 + contribSum l p.1 t := by
        rw [contribSum, contribSum, List.filter_cons_of_pos (by simp),
          List.map_cons, List.sum_cons]
      rw [hfil]
      ring
    · have hset : (accStep outs p).getD c [] = outs.getD c [] := by
        rw [accStep, List.getD_eq_getElem?_getD, List.getElem?_set_ne hpc,
          List.getD_eq_getElem?_getD]
      have hfil : contribSum (p :: l) c t = contribSum l c t := by
        rw [contribSum, contribSum, List.filter_cons_of_neg (by simp [hpc])]
      rw [hset, hfil]

/-- C5: in accumulating routing mode, the output buffer of a physical
channel holds, at every frame of the block, the arithmetic sum of the
contributions of all buses mapped onto it — not the value written by the
last such bus alone. -/
theorem accumulating_routing_sums (nFrames nChans : Nat)
    (busOuts : List (Nat × List Int))
    (hb : ∀ p ∈ busOuts, p.1 < nChans ∧ p.2.length = nFrames)
    (c t : Nat) (ht : t < nFrames) :
    ((routeAccumulating nFrames nChans busOuts).getD c []).getD t 0 =
      contribSum busOuts c t := by
  rw [routeAccumulating, routeAcc_foldl nFrames busOuts
    (List.replicate nChans (zeroScratch nFrames))
    (by intro buf hbuf
        rw [List.eq_of_mem_replicate hbuf, zeroScratch,
          List.length_replicate])
    (by intro p hp
        rw [List.length_replicate]
        exact hb p hp)
    c t ht]
  have hzero : ((List.replicate nChans (zeroScratch nFrames)).getD c
      []).getD t 0 = 0 := by
    rw [List.getD_eq_getElem?_getD (List.replicate nChans
      (zeroScratch nFrames)) c [], List.getElem?_replicate]
    by_cases hcn : c < nChans <;>
      simp [hcn, zeroScratch, List.getElem?_replicate, ht]
  rw [hzero, zero_add]

/-- Witness for C5: two buses both mapped onto physical channel 0, one
contributing 3 and the other 4 at frame 0; the routed output holds 7 (the
sum), not 4 (the last writer). -/
theorem accumulating_routing_sums_witness :
    ((routeAccumulating 1 1 [(0, [3]), (0, [4])]).getD 0 []).getD 0 0 =
      contribSum [(0, [3]), (0, [4])] 0 0 ∧
    contribSum [(0, [3]), (0, [4])] 0 0 = 7 :=
  ⟨accumulating_routing_sums 1 1 [(0, [3]), (0, [4])] (by decide) 0 0
     (by decide),
   by decide⟩


/-! ## C9, C10: wildcard query and side-chain accessors (bodies in the
header itself) -/

/-- From the source (IPlugProcessor.h:129): `HasWildcardBus` returns
`mIOConfigs.Get(0)->ContainsWildcard(direction)` — it consults descriptor
0 only (the header marks this "/todo only supports a single I/O config").
`Get(0)` on an empty list yields a null pointer whose dereference is
undefined, modelled as `none`. -/
def HasWildcardBus (cfgs : List IOConfig) (dir : ERoute) : Option Bool :=
  (cfgs.head?).map fun c => containsWildcard c dir

/-- C9: for every configuration with at least one descriptor and every
direction, the wildcard query consults only the first parsed descriptor:
its result is whether descriptor 0 contains a wildcard in that direction,
unchanged under any replacement of the later descriptors. -/
theorem hasWildcardBus_first_descriptor_only (c : IOConfig)
    (rest rest' : List IOConfig) (dir : ERoute) :
    HasWildcardBus (c :: rest) dir = some (containsWildcard c dir) ∧
    HasWildcardBus (c :: rest) dir = HasWildcardBus (c :: rest') dir := by
  constructor <;> rfl

/-- From the source (IPlugProcessor.h:167): `NSidechainChannels` returns
the constant 1, regardless of the topology (marked "TODO: this needs to
be more flexible, based on channel I/O"). -/
def NSidechainChannels : Nat := 1

/-- From the source (IPlugProcessor.h:164): `HasSidechainInput` is
`mMaxNInBuses > 1`, where `mMaxNInBuses` is the max-input-bus aggregate
stored by the constructor from `ParseChannelIOStr`
(IPlugProcessor.h:250). -/
def HasSidechainInput (mMaxNInBuses : Nat) : Bool :=
  decide (1 < mMaxNInBuses)

/-- C10: `NSidechainChannels` is 1 for every topology — also when the
configuration string declares a side-chain input bus with a channel count
other than 1 — and `HasSidechainInput` holds exactly when the maximum
input bus count across all parsed descriptors exceeds 1. -/
theorem sidechain_semantics (s : String) (cfgs : List IOConfig)
    (tIn tOut bIn bOut : Nat)
    (h : ParseChannelIOStr s = some (cfgs, tIn, tOut, bIn, bOut)) :
    NSidechainChannels = 1 ∧
    (HasSidechainInput bIn = true ↔
      1 < maxList (cfgs.map fun k => k.inBuses.length)) := by
  refine ⟨rfl, ?_⟩
  unfold ParseChannelIOStr at h
  cases hts : tokensOf s.data with
  | nil => rw [hts] at h; exact absurd h (by simp)
  | cons t ts =>
    rw [hts] at h
    obtain ⟨news, hcfgs, _, _, _, hr, _⟩ :=
      parseLoop_some_eq (t :: ts) [] 0 0 0 0 cfgs tIn tOut bIn bOut h
    simp only [List.nil_append] at hcfgs
    subst hcfgs
    rw [hr]
    simp [HasSidechainInput]

/-- Witness for C10 at "2.3-1": a main stereo input bus plus a
three-channel side-chain input bus; `NSidechainChannels` is still 1, and
`HasSidechainInput` holds since the descriptor has 2 input buses. -/
theorem sidechain_semantics_witness :
    NSidechainChannels = 1 ∧
    (HasSidechainInput 2 = true ↔
      1 < maxList (([⟨[BusChans.fixed 2, BusChans.fixed 3],
        [BusChans.fixed 1]⟩] : List IOConfig).map
          fun k => k.inBuses.length)) :=
  sidechain_semantics "2.3-1"
    [⟨[BusChans.fixed 2, BusChans.fixed 3], [BusChans.fixed 1]⟩]
    5 1 2 1 (by decide)

end IPlug
